import Mathlib

/-!
Shallow embedding of the hangman program (src/hangman.py) and verification of
its specification.

The program's characters are Basic Latin: the game only ever evaluates keys in
the printable ASCII range 32..126, so Python's `str.lower`, `str.isalpha` and
`str.isdigit` coincide with `Char.toLower`, `Char.isAlpha` and `Char.isDigit`
on every character the logic inspects.  Strings are modelled as `List Char`,
Python sets as `Finset Char`, Python dicts as association lists updated in
place.
-/

/-! ### Facts about `Char.toLower` used throughout -/

theorem char_toNat_ofNat (n : Nat) (h : n < 55296) : (Char.ofNat n).toNat = n := by
  have hv : n.isValidChar := Or.inl h
  simp [Char.ofNat, hv, Char.ofNatAux, Char.toNat, UInt32.toNat]

theorem char_eq_of_toNat {c d : Char} (h : c.toNat = d.toNat) : c = d := by
  apply Char.ext
  apply UInt32.ext
  exact h

theorem uint32_le_toNat (a b : UInt32) : a ≤ b ↔ a.toNat ≤ b.toNat := Iff.rfl

theorem char_isUpper_iff (c : Char) : c.isUpper = true ↔ 65 ≤ c.toNat ∧ c.toNat ≤ 90 := by
  simp [Char.isUpper, uint32_le_toNat, Char.toNat, UInt32.size]

theorem char_isLower_iff (c : Char) : c.isLower = true ↔ 97 ≤ c.toNat ∧ c.toNat ≤ 122 := by
  simp [Char.isLower, uint32_le_toNat, Char.toNat, UInt32.size]

theorem char_isAlpha_iff (c : Char) :
    c.isAlpha = true ↔ (65 ≤ c.toNat ∧ c.toNat ≤ 90) ∨ (97 ≤ c.toNat ∧ c.toNat ≤ 122) := by
  simp [Char.isAlpha, char_isUpper_iff, char_isLower_iff]

theorem toLower_toNat (c : Char) :
    c.toLower.toNat = if 65 ≤ c.toNat ∧ c.toNat ≤ 90 then c.toNat + 32 else c.toNat := by
  unfold Char.toLower
  by_cases h : c.toNat ≥ 65 ∧ c.toNat ≤ 90
  · have h2 : (Char.ofNat (c.toNat + 32)).toNat = c.toNat + 32 :=
      char_toNat_ofNat _ (by omega)
    simp [h, h2]
  · simp [h]

theorem toLower_idem (c : Char) : c.toLower.toLower = c.toLower := by
  apply char_eq_of_toNat
  simp only [toLower_toNat]
  split_ifs <;> omega

theorem isAlpha_toLower {c : Char} (h : c.isAlpha = true) : c.toLower.isAlpha = true := by
  rw [char_isAlpha_iff] at h ⊢
  rw [toLower_toNat]
  rcases h with h | h
  · rw [if_pos h]; omega
  · rw [if_neg (by omega)]; omega

theorem isAlpha_printable {c : Char} (h : c.isAlpha = true) :
    32 ≤ c.toNat ∧ c.toNat ≤ 126 := by
  rw [char_isAlpha_iff] at h
  omega

theorem isAlpha_of_toLower {c : Char} (h : c.toLower.isAlpha = true) : c.isAlpha = true := by
  rw [char_isAlpha_iff] at h ⊢
  rw [toLower_toNat] at h
  by_cases hc : 65 ≤ c.toNat ∧ c.toNat ≤ 90
  · exact Or.inl hc
  · rw [if_neg hc] at h; exact h

theorem toLower_ne_underscore {c : Char} (h : c.isAlpha = true) : c.toLower ≠ '_' := by
  intro he
  have : c.toLower.toNat = 95 := by rw [he]; rfl
  rw [toLower_toNat] at this
  rw [char_isAlpha_iff] at h
  by_cases hc : 65 ≤ c.toNat ∧ c.toNat ≤ 90
  · rw [if_pos hc] at this; omega
  · rw [if_neg hc] at this; omega

theorem toLower_eq_q_iff (c : Char) : c.toLower = 'q' ↔ c = 'q' ∨ c = 'Q' := by
  constructor
  · intro h
    have ht : c.toLower.toNat = 113 := by rw [h]; rfl
    rw [toLower_toNat] at ht
    by_cases hc : 65 ≤ c.toNat ∧ c.toNat ≤ 90
    · rw [if_pos hc] at ht
      right
      refine char_eq_of_toNat ?_
      have h81 : ('Q').toNat = 81 := rfl
      omega
    · rw [if_neg hc] at ht
      left
      exact char_eq_of_toNat (by rw [ht]; rfl)
  · rintro (rfl | rfl) <;> rfl

/-! ### Dictionary line parsing (`HangmanGame.read_dictionary`, the per-line body) -/

/-- Python `str` whitespace: space, tab, newline, carriage return, vertical tab,
form feed. -/
def pyIsSpace (c : Char) : Bool :=
  c = ' ' || c = '\t' || c = '\n' || c = '\r' || c = '\x0b' || c = '\x0c'

/-- Python `str.strip()`: drop leading and trailing whitespace. -/
def pyStrip (l : List Char) : List Char :=
  ((l.dropWhile pyIsSpace).reverse.dropWhile pyIsSpace).reverse

/-- Python `str.split()` with no argument: maximal runs of non-whitespace. -/
def pySplitWs (l : List Char) : List (List Char) :=
  let r := l.foldr
    (fun c acc =>
      if pyIsSpace c then
        (if acc.2.isEmpty then acc.1 else acc.2 :: acc.1, ([] : List Char))
      else (acc.1, c :: acc.2))
    ([], [])
  if r.2.isEmpty then r.1 else r.2 :: r.1

/-- `parts[0]` of `line.split('|', 1)`: everything before the first pipe. -/
def prePipe (line : List Char) : List Char :=
  line.takeWhile (fun c => c ≠ '|')

/-- `parts[1]` of `line.split('|', 1)`: everything after the first pipe. -/
def postPipe (line : List Char) : List Char :=
  (line.dropWhile (fun c => c ≠ '|')).tail

/-- `parts[0].split()[4]`, the headword of a dictionary line. -/
def lineWord (line : List Char) : List Char :=
  (pySplitWs (prePipe line)).getD 4 []

/-- `parts[1].split(';')[0].strip()`, the definition of a dictionary line. -/
def lineDef (line : List Char) : List Char :=
  pyStrip ((postPipe line).takeWhile (fun c => c ≠ ';'))

/-- One iteration of the line loop in `HangmanGame.read_dictionary`
(src/hangman.py lines 205-227): the entry stored for the line, if any.
The `len(parts) < 2` guard of the source is unreachable because a pipe is
required first, and the `IndexError`/`ValueError` handler is dead because
every subscript is guarded, so the loop body is a total function. -/
def parseLine (raw : List Char) : Option (List Char × List Char) :=
  let line := pyStrip raw
  if line.isEmpty || !(line.headD ' ').isDigit || !line.contains '|' then none
  else if (pySplitWs (prePipe line)).length < 5 then none
  else if !(lineWord line).isEmpty && !(lineDef line).isEmpty then
    some (lineWord line, lineDef line)
  else none

/-! ### The dictionary cache (`HangmanGame.read_dictionary`) -/

/-- Python dict lookup on an association list. -/
def dictFind {α β : Type} [DecidableEq α] : List (α × β) → α → Option β
  | [], _ => none
  | (k, v) :: rest, w => if k = w then some v else dictFind rest w

/-- Python dict assignment `d[k] = v`: overwrite in place, else append. -/
def dictInsert {α β : Type} [DecidableEq α] : List (α × β) → α → β → List (α × β)
  | [], w, v => [(w, v)]
  | (k, u) :: rest, w, v =>
      if k = w then (k, v) :: rest else (k, u) :: dictInsert rest w v

/-- The whole line loop of `read_dictionary`, starting from dict `d`. -/
def loadLinesFrom (d : List (List Char × List Char)) (lines : List (List Char)) :
    List (List Char × List Char) :=
  lines.foldl
    (fun d raw =>
      match parseLine raw with
      | some wd => dictInsert d wd.1 wd.2
      | none => d)
    d

/-- The per-type dictionary built from a file's lines (the loop starts from
the empty dict installed at src/hangman.py line 200). -/
def loadLines (lines : List (List Char)) : List (List Char × List Char) :=
  loadLinesFrom [] lines

inductive DictFailure
  | fileNotFound
  deriving DecidableEq

/-- `HangmanGame.read_dictionary` (src/hangman.py lines 183-231) with the
state passed explicitly.  `fs` maps a word type to the lines of the file
`data.<word_type>` when that file exists; `dicts` is the cache
`self.dictionaries`.  Returns the new cache and the failure, if any;
the cache is only assigned after the existence check, as in the source. -/
def read_dictionary (fs : String → Option (List (List Char)))
    (dicts : List (String × List (List Char × List Char))) (word_type : String) :
    List (String × List (List Char × List Char)) × Option DictFailure :=
  if (dictFind dicts word_type).isSome then (dicts, none)
  else
    match fs word_type with
    | none => (dicts, some DictFailure.fileNotFound)
    | some lines => (dictInsert dicts word_type (loadLines lines), none)

/-! ### Game state -/

structure GameState where
  word : List Char
  progress : List Char
  guessed : Finset Char
  incorrect : Nat
  deriving DecidableEq

/-- The write loop of `HangmanGame.update_word_progress`: at every position of
`word` whose lowercase equals `letter.toLower`, the progress cell becomes
`letter.toLower`; other cells are kept. -/
def revealMatches (letter : Char) : List Char → List Char → List Char
  | w :: ws, p :: ps =>
      (if letter.toLower = w.toLower then letter.toLower else p) ::
        revealMatches letter ws ps
  | _, ps => ps

/-- `HangmanGame.update_word_progress` (src/hangman.py lines 233-252): reveals
the matching positions and reports whether any position matched.  The guard
`if not self.current_word` of the source returns early on an empty word. -/
def update_word_progress (letter : Char) (st : GameState) : GameState × Bool :=
  if st.word.isEmpty then (st, false)
  else
    ({ st with progress := revealMatches letter st.word st.progress },
     st.word.any (fun ch => letter.toLower == ch.toLower))

/-- `HangmanGame.is_word_complete` (src/hangman.py lines 254-260). -/
def is_word_complete (st : GameState) : Bool :=
  !st.progress.contains '_'

inductive GuessOutcome
  | ignored
  | alreadyGuessed
  | hit
  | miss
  deriving DecidableEq

/-- The guess-evaluation path of `HangmanGame.play_game`
(src/hangman.py lines 399-420), reached once the quit keys have been
filtered: printable keys are lowercased; non-letters are ignored; a repeated
letter mutates nothing; a new letter is added to `guessed_letters`, reveals
its positions, and on a miss increments `incorrect_guesses`. -/
def processGuess (st : GameState) (key : Char) : GameState × GuessOutcome :=
  if 32 ≤ key.toNat ∧ key.toNat ≤ 126 then
    let letter := key.toLower
    if !letter.isAlpha then (st, GuessOutcome.ignored)
    else if letter ∈ st.guessed then (st, GuessOutcome.alreadyGuessed)
    else
      let st1 := { st with guessed := insert letter st.guessed }
      let r := update_word_progress letter st1
      if r.2 then (r.1, GuessOutcome.hit)
      else ({ r.1 with incorrect := r.1.incorrect + 1 }, GuessOutcome.miss)
  else (st, GuessOutcome.ignored)

/-- One key press of the `play_game` loop as a state transformer
(src/hangman.py lines 386-420): the keys q and Q are skipped before any
guess evaluation; the escape path leaves the state unchanged. -/
def handleKey (st : GameState) (key : Char) : GameState :=
  if key = 'q' ∨ key = 'Q' then st
  else (processGuess st key).1

/-- A whole sequence of key presses. -/
def play (st : GameState) (keys : List Char) : GameState :=
  keys.foldl handleKey st

/-- A sequence of guesses fed straight to the guess evaluation. -/
def runGuesses (st : GameState) (letters : List Char) : GameState :=
  letters.foldl (fun s l => (processGuess s l).1) st

/-- Round initialization (src/hangman.py lines 322-327): placeholders for
alphabetic characters, then the pre-fill passes for hyphens and spaces. -/
def newRound (word : List Char) : GameState :=
  let st0 : GameState :=
    { word := word
      progress := word.map (fun c => if c.isAlpha then '_' else c)
      guessed := ∅
      incorrect := 0 }
  let st1 := (update_word_progress '-' st0).1
  (update_word_progress ' ' st1).1

/-! ### The figure dispatch table (`HangmanGame.GAME_PROGRESSION`) -/

inductive FigurePart
  | head
  | neck
  | torso
  | right_arm
  | left_arm
  | right_leg
  | left_leg
  | right_shoe
  | left_shoe
  deriving DecidableEq

/-- `HangmanGame.GAME_PROGRESSION` (src/hangman.py lines 155-166): stage
index to drawing action; stage 0 draws nothing. -/
def GAME_PROGRESSION : List (Nat × Option FigurePart) :=
  [(0, none), (1, some FigurePart.head), (2, some FigurePart.neck),
   (3, some FigurePart.torso), (4, some FigurePart.right_arm),
   (5, some FigurePart.left_arm), (6, some FigurePart.right_leg),
   (7, some FigurePart.left_leg), (8, some FigurePart.right_shoe),
   (9, some FigurePart.left_shoe)]

/-- `max_incorrect = len(self.GAME_PROGRESSION) - 1` (src/hangman.py line 355). -/
def max_incorrect : Nat := GAME_PROGRESSION.length - 1

/-- The round is lost exactly when the `while incorrect_guesses < max_incorrect`
guard of `play_game` fails (src/hangman.py line 357). -/
def is_lost (incorrect maxIncorrect : Nat) : Bool :=
  decide (maxIncorrect ≤ incorrect)

/-- Case-insensitive occurrence of the letter in the word, as computed by
`update_word_progress`. -/
def occursB (letter : Char) (word : List Char) : Bool :=
  word.any (fun c => letter.toLower == c.toLower)

/-! ### Small-step characterization of the guess evaluation -/

theorem toLower_eq_self_of_not_upper {c : Char} (h : ¬(65 ≤ c.toNat ∧ c.toNat ≤ 90)) :
    c.toLower = c :=
  char_eq_of_toNat (by rw [toLower_toNat, if_neg h])

theorem toLower_eq_self_of_not_alpha {c : Char} (h : c.isAlpha = false) : c.toLower = c := by
  apply toLower_eq_self_of_not_upper
  intro hc
  rw [← Bool.not_eq_true, char_isAlpha_iff] at h
  exact h (Or.inl hc)

theorem toLower_alpha_ne_not_alpha {c d : Char} (h : c.isAlpha = true) (hd : d.isAlpha = false) :
    c.toLower ≠ d := by
  intro he
  rw [← he] at hd
  rw [isAlpha_toLower h] at hd
  exact absurd hd (by simp)

theorem occursB_toLower (k : Char) (w : List Char) : occursB k.toLower w = occursB k w := by
  unfold occursB
  simp only [toLower_idem]

theorem revealMatches_nil (l : Char) (p : List Char) : revealMatches l [] p = p := by
  cases p <;> rfl

theorem revealMatches_map (l : Char) (w : List Char) (f : Char → Char) :
    revealMatches l w (w.map f)
      = w.map (fun c => if l.toLower = c.toLower then l.toLower else f c) := by
  induction w with
  | nil => rfl
  | cons c cs ih => simp [revealMatches, ih]

theorem update_progress (l : Char) (st : GameState) :
    (update_word_progress l st).1.progress = revealMatches l st.word st.progress := by
  unfold update_word_progress
  by_cases he : st.word.isEmpty
  · rw [List.isEmpty_iff] at he
    simp [he, revealMatches_nil]
  · simp [he]

theorem update_frame (l : Char) (st : GameState) :
    (update_word_progress l st).1.word = st.word ∧
    (update_word_progress l st).1.guessed = st.guessed ∧
    (update_word_progress l st).1.incorrect = st.incorrect := by
  unfold update_word_progress
  by_cases he : st.word.isEmpty <;> simp [he]

theorem update_found (l : Char) (st : GameState) :
    (update_word_progress l st).2 = occursB l st.word := by
  unfold update_word_progress occursB
  by_cases he : st.word.isEmpty
  · rw [List.isEmpty_iff] at he
    simp [he]
  · simp [he]

theorem processGuess_not_printable {st : GameState} {k : Char}
    (h : ¬(32 ≤ k.toNat ∧ k.toNat ≤ 126)) :
    processGuess st k = (st, GuessOutcome.ignored) := by
  unfold processGuess
  rw [if_neg h]

theorem processGuess_not_alpha {st : GameState} {k : Char}
    (hpr : 32 ≤ k.toNat ∧ k.toNat ≤ 126) (ha : k.toLower.isAlpha = false) :
    processGuess st k = (st, GuessOutcome.ignored) := by
  unfold processGuess
  rw [if_pos hpr]
  simp [ha]

theorem processGuess_already {st : GameState} {k : Char}
    (hpr : 32 ≤ k.toNat ∧ k.toNat ≤ 126) (ha : k.toLower.isAlpha = true)
    (hm : k.toLower ∈ st.guessed) :
    processGuess st k = (st, GuessOutcome.alreadyGuessed) := by
  unfold processGuess
  rw [if_pos hpr]
  simp [ha, hm]

theorem processGuess_new {st : GameState} {k : Char}
    (hpr : 32 ≤ k.toNat ∧ k.toNat ≤ 126) (ha : k.toLower.isAlpha = true)
    (hm : k.toLower ∉ st.guessed) :
    (processGuess st k).1.word = st.word ∧
    (processGuess st k).1.guessed = insert k.toLower st.guessed ∧
    (processGuess st k).1.progress = revealMatches k.toLower st.word st.progress ∧
    (processGuess st k).1.incorrect
      = (if occursB k st.word then st.incorrect else st.incorrect + 1) ∧
    (processGuess st k).2
      = (if occursB k st.word then GuessOutcome.hit else GuessOutcome.miss) := by
  unfold processGuess
  rw [if_pos hpr]
  simp only [ha, Bool.not_true, Bool.false_eq_true, if_false, hm, if_neg hm]
  set st1 : GameState := { st with guessed := insert k.toLower st.guessed } with hst1
  have hw1 : st1.word = st.word := rfl
  have hp1 : st1.progress = st.progress := rfl
  have hf := update_found k.toLower st1
  have hfr := update_frame k.toLower st1
  have hpp := update_progress k.toLower st1
  rw [hw1] at hf hpp
  rw [occursB_toLower] at hf
  by_cases ho : occursB k st.word
  · rw [ho] at hf
    simp [hf, hfr.1, hfr.2.1, hfr.2.2, hpp, hp1, ho, hw1]
  · rw [Bool.not_eq_true] at ho
    rw [ho] at hf
    simp [hf, hfr.1, hfr.2.1, hfr.2.2, hpp, hp1, ho, hw1]

/-! ### The round invariant -/

/-- The value a progress cell must hold, given the guessed set: a guessed
alphabetic character shows its lowercase form, an unguessed one shows the
placeholder, a non-alphabetic character shows itself. -/
def charState (g : Finset Char) (c : Char) : Char :=
  if c.isAlpha then (if c.toLower ∈ g then c.toLower else '_') else c

/-- Invariant of a round on word `w`: the word never changes, the guessed set
holds only lowercase-normalized characters, and every progress cell is
determined by the guessed set. -/
def RoundInv (w : List Char) (st : GameState) : Prop :=
  st.word = w ∧ (∀ x ∈ st.guessed, x.toLower = x) ∧
    st.progress = w.map (charState st.guessed)

theorem newRound_basic (w : List Char) :
    (newRound w).word = w ∧ (newRound w).guessed = ∅ ∧ (newRound w).incorrect = 0 := by
  unfold newRound
  refine ⟨?_, ?_, ?_⟩ <;>
    simp [update_frame, (update_frame ' ' _).1, (update_frame ' ' _).2.1,
      (update_frame ' ' _).2.2, (update_frame '-' _).1, (update_frame '-' _).2.1,
      (update_frame '-' _).2.2]

theorem newRound_inv (w : List Char) : RoundInv w (newRound w) := by
  obtain ⟨hw, hg, _⟩ := newRound_basic w
  refine ⟨hw, ?_, ?_⟩
  · rw [hg]
    intro x hx
    exact absurd hx (Finset.not_mem_empty x)
  · rw [hg]
    show (newRound w).progress = w.map (charState ∅)
    unfold newRound
    set st0 : GameState :=
      { word := w
        progress := w.map (fun c => if c.isAlpha then '_' else c)
        guessed := ∅
        incorrect := 0 } with hst0
    have h1p : ((update_word_progress '-' st0).1).progress
        = w.map (fun c => if ('-').toLower = c.toLower then ('-').toLower
            else if c.isAlpha then '_' else c) := by
      rw [update_progress]
      show revealMatches '-' w (w.map _) = _
      rw [revealMatches_map]
    have h1w : ((update_word_progress '-' st0).1).word = w := (update_frame '-' st0).1
    have h2p : ((update_word_progress ' ' (update_word_progress '-' st0).1).1).progress
        = w.map (fun c => if (' ').toLower = c.toLower then (' ').toLower
            else if ('-').toLower = c.toLower then ('-').toLower
            else if c.isAlpha then '_' else c) := by
      rw [update_progress, h1w, h1p, revealMatches_map]
    rw [h2p]
    congr 1
    funext c
    by_cases ha : c.isAlpha
    · have hd1 : (' ' : Char) ≠ c.toLower := by
        intro he
        have := isAlpha_toLower ha
        rw [← he] at this
        exact absurd this (by decide)
      have hd2 : ('-' : Char) ≠ c.toLower := by
        intro he
        have := isAlpha_toLower ha
        rw [← he] at this
        exact absurd this (by decide)
      simp [charState, ha, hd1, hd2]
    · rw [Bool.not_eq_true] at ha
      have hc : c.toLower = c := toLower_eq_self_of_not_alpha ha
      by_cases h1 : c = '-'
      · subst h1
        simp [charState]
      · by_cases h2 : c = ' '
        · subst h2
          simp [charState]
        · have hd1 : (' ' : Char) ≠ c.toLower := by
            rw [hc]
            intro he
            exact h2 he.symm
          have hd2 : ('-' : Char) ≠ c.toLower := by
            rw [hc]
            intro he
            exact h1 he.symm
          simp [charState, ha, hd1, hd2]

theorem roundInv_processGuess {w : List Char} {st : GameState} (h : RoundInv w st)
    (k : Char) : RoundInv w (processGuess st k).1 := by
  obtain ⟨hw, hg, hp⟩ := h
  by_cases hpr : 32 ≤ k.toNat ∧ k.toNat ≤ 126
  · by_cases ha : k.toLower.isAlpha
    · by_cases hm : k.toLower ∈ st.guessed
      · rw [processGuess_already hpr ha hm]
        exact ⟨hw, hg, hp⟩
      · obtain ⟨h1, h2, h3, _, _⟩ := processGuess_new hpr ha hm
        refine ⟨h1.trans hw, ?_, ?_⟩
        · rw [h2]
          intro x hx
          rcases Finset.mem_insert.mp hx with rfl | hx
          · exact toLower_idem k
          · exact hg x hx
        · rw [h3, h2, hw, hp, revealMatches_map]
          congr 1
          funext c
          have hll : k.toLower.toLower = k.toLower := toLower_idem k
          by_cases he : k.toLower = c.toLower
          · have hca : c.isAlpha = true := by
              apply isAlpha_of_toLower
              rw [← he]
              exact ha
            have hmem : c.toLower ∈ insert k.toLower st.guessed := by
              rw [← he]
              exact Finset.mem_insert_self _ _
            simp [charState, hca, hmem, hll, he, toLower_idem]
          · rw [hll, if_neg he]
            unfold charState
            by_cases hca : c.isAlpha
            · have : (c.toLower ∈ insert k.toLower st.guessed) ↔ c.toLower ∈ st.guessed := by
                rw [Finset.mem_insert]
                constructor
                · rintro (hq | hq)
                  · exact absurd hq.symm he
                  · exact hq
                · exact Or.inr
              simp [hca, this]
            · simp [hca]
    · rw [Bool.not_eq_true] at ha
      rw [processGuess_not_alpha hpr ha]
      exact ⟨hw, hg, hp⟩
  · rw [processGuess_not_printable hpr]
    exact ⟨hw, hg, hp⟩

theorem roundInv_handleKey {w : List Char} {st : GameState} (h : RoundInv w st)
    (k : Char) : RoundInv w (handleKey st k) := by
  unfold handleKey
  by_cases hq : k = 'q' ∨ k = 'Q'
  · rw [if_pos hq]
    exact h
  · rw [if_neg hq]
    exact roundInv_processGuess h k

theorem roundInv_play {w : List Char} {st : GameState} (h : RoundInv w st)
    (ks : List Char) : RoundInv w (play st ks) := by
  induction ks generalizing st with
  | nil => exact h
  | cons k ks ih => exact ih (roundInv_handleKey h k)

/-- No reachable guessed set ever holds the letter q: the key is skipped. -/
def NoQ (st : GameState) : Prop := ∀ x ∈ st.guessed, x ≠ 'q'

theorem noQ_handleKey {st : GameState} (h : NoQ st) (k : Char) : NoQ (handleKey st k) := by
  unfold handleKey
  by_cases hq : k = 'q' ∨ k = 'Q'
  · rw [if_pos hq]
    exact h
  · rw [if_neg hq]
    by_cases hpr : 32 ≤ k.toNat ∧ k.toNat ≤ 126
    · by_cases ha : k.toLower.isAlpha
      · by_cases hm : k.toLower ∈ st.guessed
        · rw [processGuess_already hpr ha hm]
          exact h
        · obtain ⟨_, h2, _, _, _⟩ := processGuess_new hpr ha hm
          intro x hx
          rw [h2] at hx
          rcases Finset.mem_insert.mp hx with rfl | hx
          · intro he
            exact hq ((toLower_eq_q_iff k).mp he)
          · exact h x hx
      · rw [Bool.not_eq_true] at ha
        rw [processGuess_not_alpha hpr ha]
        exact h
    · rw [processGuess_not_printable hpr]
      exact h

theorem noQ_play {st : GameState} (h : NoQ st) (ks : List Char) : NoQ (play st ks) := by
  induction ks generalizing st with
  | nil => exact h
  | cons k ks ih => exact ih (noQ_handleKey h k)

theorem noQ_newRound (w : List Char) : NoQ (newRound w) := by
  intro x hx
  rw [(newRound_basic w).2.1] at hx
  exact absurd hx (Finset.not_mem_empty x)

/-! ### Further supporting lemmas -/

theorem is_word_complete_iff (st : GameState) :
    is_word_complete st = true ↔ '_' ∉ st.progress := by
  unfold is_word_complete
  simp [List.elem_iff, List.contains]

theorem revealMatches_no_match (letter : Char) (w p : List Char)
    (h : ∀ c ∈ w, ¬ letter.toLower = c.toLower) : revealMatches letter w p = p := by
  induction w generalizing p with
  | nil => exact revealMatches_nil letter p
  | cons c cs ih =>
    cases p with
    | nil => rfl
    | cons q ps =>
      have hc := h c (List.mem_cons_self c cs)
      simp [revealMatches, hc]
      exact ih ps (fun x hx => h x (List.mem_cons_of_mem c hx))

theorem runGuesses_misses {ls : List Char} {st : GameState}
    (hA : ∀ l ∈ ls, l.isAlpha = true)
    (hO : ∀ l ∈ ls, occursB l st.word = false)
    (hF : ∀ l ∈ ls, l.toLower ∉ st.guessed)
    (hD : ls.Pairwise (fun a b => a.toLower ≠ b.toLower)) :
    (runGuesses st ls).word = st.word ∧
    (runGuesses st ls).progress = st.progress ∧
    (runGuesses st ls).incorrect = st.incorrect + ls.length := by
  induction ls generalizing st with
  | nil => simp [runGuesses]
  | cons l ls ih =>
    have hAl := hA l (List.mem_cons_self l ls)
    have hOl := hO l (List.mem_cons_self l ls)
    have hFl := hF l (List.mem_cons_self l ls)
    obtain ⟨h1, h2, h3, h4, _⟩ :=
      processGuess_new (isAlpha_printable hAl) (isAlpha_toLower hAl) hFl
    rw [List.pairwise_cons] at hD
    have hstep : runGuesses st (l :: ls) = runGuesses (processGuess st l).1 ls := rfl
    have hp : (processGuess st l).1.progress = st.progress := by
      rw [h3]
      apply revealMatches_no_match
      intro c hc he
      have : occursB l st.word = true := by
        unfold occursB
        rw [List.any_eq_true]
        exact ⟨c, hc, by rw [← toLower_idem l, he]; simp⟩
      rw [hOl] at this
      exact Bool.false_ne_true this
    have hi : (processGuess st l).1.incorrect = st.incorrect + 1 := by
      rw [h4, hOl]
      simp
    obtain ⟨r1, r2, r3⟩ := ih
      (fun x hx => hA x (List.mem_cons_of_mem l hx))
      (by
        intro x hx
        rw [h1]
        exact hO x (List.mem_cons_of_mem l hx))
      (by
        intro x hx
        rw [h2, Finset.mem_insert]
        rintro (he | he)
        · exact (hD.1 x hx) he.symm
        · exact hF x (List.mem_cons_of_mem l hx) he)
      hD.2
    rw [hstep] at *
    refine ⟨r1.trans h1, r2.trans hp, ?_⟩
    rw [r3, hi, List.length_cons]
    omega

theorem dictFind_insert {α β : Type} [DecidableEq α] (d : List (α × β)) (k w : α) (v : β) :
    dictFind (dictInsert d k v) w = if k = w then some v else dictFind d w := by
  induction d with
  | nil =>
    unfold dictInsert dictFind
    by_cases h : k = w <;> simp [h, dictFind]
  | cons kv rest ih =>
    obtain ⟨a, b⟩ := kv
    unfold dictInsert
    by_cases h : a = k
    · subst h
      unfold dictFind
      by_cases h2 : a = w <;> simp [h2]
    · rw [if_neg h]
      unfold dictFind
      by_cases h2 : a = w
      · subst h2
        rw [if_pos rfl, if_pos rfl, if_neg (fun he => h he.symm)]
      · rw [if_neg h2, if_neg h2, ih]

theorem loadLinesFrom_append (d : List (List Char × List Char))
    (xs ys : List (List Char)) :
    loadLinesFrom d (xs ++ ys) = loadLinesFrom (loadLinesFrom d xs) ys := by
  unfold loadLinesFrom
  rw [List.foldl_append]

theorem loadLinesFrom_no_word (d : List (List Char × List Char))
    (lines : List (List Char)) (w : List Char)
    (h : ∀ l ∈ lines, ∀ e : List Char × List Char, parseLine l = some e → e.1 ≠ w) :
    dictFind (loadLinesFrom d lines) w = dictFind d w := by
  induction lines generalizing d with
  | nil => rfl
  | cons l ls ih =>
    have hstep : loadLinesFrom d (l :: ls)
        = loadLinesFrom
            (match parseLine l with
             | some wd => dictInsert d wd.1 wd.2
             | none => d) ls := rfl
    rw [hstep]
    rw [ih _ (fun x hx => h x (List.mem_cons_of_mem l hx))]
    cases hpl : parseLine l with
    | none => simp
    | some e =>
      simp only
      rw [dictFind_insert, if_neg (h l (List.mem_cons_self l ls) e hpl)]

theorem parseLine_eq (raw : List Char) :
    parseLine raw =
      if ((pyStrip raw).isEmpty || !((pyStrip raw).headD ' ').isDigit
          || !(pyStrip raw).contains '|') then none
      else if (pySplitWs (prePipe (pyStrip raw))).length < 5 then none
      else if !(lineWord (pyStrip raw)).isEmpty && !(lineDef (pyStrip raw)).isEmpty then
        some (lineWord (pyStrip raw), lineDef (pyStrip raw))
      else none := rfl

theorem parseLine_nonempty {raw w d : List Char} (h : parseLine raw = some (w, d)) :
    w ≠ [] ∧ d ≠ [] := by
  rw [parseLine_eq] at h
  split_ifs at h with h1 h2 h3
  rw [Option.some_inj, Prod.mk.injEq] at h
  obtain ⟨rfl, rfl⟩ := h
  rw [Bool.and_eq_true] at h3
  obtain ⟨hw, hd⟩ := h3
  constructor
  · intro he
    rw [he] at hw
    exact absurd hw (by simp)
  · intro he
    rw [he] at hd
    exact absurd hd (by simp)

/-! ### The claims -/

/-- Claim C1: processing a not-yet-guessed alphabetic letter adds its
lowercase form to the guessed set, growing it by exactly one, and increments
the incorrect counter by exactly 1 if and only if the letter does not occur
case-insensitively in the current word. -/
theorem guess_new_letter (st : GameState) (L : Char) (hA : L.isAlpha = true)
    (hN : L.toLower ∉ st.guessed) :
    (processGuess st L).1.guessed = insert L.toLower st.guessed ∧
    (processGuess st L).1.guessed.card = st.guessed.card + 1 ∧
    (processGuess st L).1.incorrect
      = (if occursB L st.word then st.incorrect else st.incorrect + 1) := by
  obtain ⟨_, h2, _, h4, _⟩ :=
    processGuess_new (isAlpha_printable hA) (isAlpha_toLower hA) hN
  exact ⟨h2, by rw [h2, Finset.card_insert_of_not_mem hN], h4⟩

/-- Witness for C1: on a fresh round with word cat, guessing x is counted as
incorrect and guessing a is not; both grow the guessed set by one. -/
theorem guess_new_letter_checked :
    (processGuess (newRound (("cat").data)) 'x').1.incorrect = 1 ∧
    (processGuess (newRound (("cat").data)) 'a').1.incorrect = 0 ∧
    (processGuess (newRound (("cat").data)) 'x').1.guessed.card = 1 := by
  have hx := guess_new_letter (newRound (("cat").data)) 'x' (by decide) (by decide)
  have ha := guess_new_letter (newRound (("cat").data)) 'a' (by decide) (by decide)
  refine ⟨?_, ?_, ?_⟩
  · rw [hx.2.2]
    decide
  · rw [ha.2.2]
    decide
  · rw [hx.2.1]
    decide

/-- Claim C6: guessing the same letter a second time reports it as already
guessed and performs no mutation at all. -/
theorem guess_idempotent (st : GameState) (L : Char) (hA : L.isAlpha = true) :
    processGuess (processGuess st L).1 L
      = ((processGuess st L).1, GuessOutcome.alreadyGuessed) := by
  have hpr := isAlpha_printable hA
  have ha := isAlpha_toLower hA
  by_cases hm : L.toLower ∈ st.guessed
  · have h := processGuess_already hpr ha hm
    rw [h]
    exact processGuess_already hpr ha hm
  · obtain ⟨_, h2, _, _, _⟩ := processGuess_new hpr ha hm
    apply processGuess_already hpr ha
    rw [h2]
    exact Finset.mem_insert_self _ _

/-- Witness for C6 at a concrete state. -/
theorem guess_idempotent_checked :
    processGuess (processGuess (newRound (("cat").data)) 'a').1 'a'
      = ((processGuess (newRound (("cat").data)) 'a').1, GuessOutcome.alreadyGuessed) :=
  guess_idempotent (newRound (("cat").data)) 'a' (by decide)

/-- Claim C9: loading a word type that is not cached and whose file does not
exist fails with the not-found error and leaves the cache unchanged. -/
theorem missing_file_error (fs : String → Option (List (List Char)))
    (dicts : List (String × List (List Char × List Char))) (word_type : String)
    (hc : dictFind dicts word_type = none) (hf : fs word_type = none) :
    read_dictionary fs dicts word_type = (dicts, some DictFailure.fileNotFound) := by
  unfold read_dictionary
  rw [hc]
  simp [hf]

/-- Witness for C9 on an empty cache and an empty filesystem. -/
theorem missing_file_error_checked :
    read_dictionary (fun _ => none) [] "noun" = ([], some DictFailure.fileNotFound) :=
  missing_file_error (fun _ => none) [] "noun" rfl rfl

/-- Claim C10: loading a word type already present in the cache returns at
once and leaves the whole cache unchanged. -/
theorem load_once (fs : String → Option (List (List Char)))
    (dicts : List (String × List (List Char × List Char))) (word_type : String)
    (d : List (List Char × List Char)) (hc : dictFind dicts word_type = some d) :
    read_dictionary fs dicts word_type = (dicts, none) := by
  unfold read_dictionary
  rw [hc]
  rfl

/-- Witness for C10: a second load of a cached word type changes nothing. -/
theorem load_once_checked :
    read_dictionary (fun _ => none) [("noun", [])] "noun" = ([("noun", [])], none) :=
  load_once (fun _ => none) [("noun", [])] "noun" [] (by rfl)

/-- Claim C4: the loss threshold is 9, one per drawable figure stage, stage 0
drawing nothing; nine distinct alphabetic guesses that all miss drive the
incorrect counter to 9, the round is lost, and the word is not complete. -/
theorem loss_at_nine :
    max_incorrect = 9 ∧
    dictFind GAME_PROGRESSION 0 = some none ∧
    (GAME_PROGRESSION.filter (fun e => e.2.isSome)).length = 9 ∧
    ∀ (w ls : List Char),
      (∃ c ∈ w, c.isAlpha = true) →
      ls.length = 9 →
      (∀ l ∈ ls, l.isAlpha = true) →
      (∀ l ∈ ls, occursB l w = false) →
      ls.Pairwise (fun a b => a.toLower ≠ b.toLower) →
      (runGuesses (newRound w) ls).incorrect = 9 ∧
      is_lost (runGuesses (newRound w) ls).incorrect max_incorrect = true ∧
      is_word_complete (runGuesses (newRound w) ls) = false := by
  refine ⟨rfl, rfl, rfl, ?_⟩
  rintro w ls ⟨c, hc, hca⟩ hlen hA hO hD
  obtain ⟨hw, hg, hi⟩ := newRound_basic w
  obtain ⟨r1, r2, r3⟩ := runGuesses_misses hA
    (by intro l hl; rw [hw]; exact hO l hl)
    (by intro l hl; rw [hg]; exact Finset.not_mem_empty _)
    hD
  have hinc : (runGuesses (newRound w) ls).incorrect = 9 := by
    rw [r3, hi, hlen]
  refine ⟨hinc, by rw [hinc]; rfl, ?_⟩
  rw [Bool.eq_false_iff]
  intro hcomp
  rw [is_word_complete_iff] at hcomp
  apply hcomp
  rw [r2]
  obtain ⟨_, _, hp⟩ := newRound_inv w
  rw [hp]
  rw [List.mem_map]
  refine ⟨c, hc, ?_⟩
  rw [(newRound_basic w).2.1]
  simp [charState, hca]

/-- Witness for C4: word dog, nine distinct missing letters. -/
theorem loss_at_nine_checked :
    (runGuesses (newRound (("dog").data)) (("abcefhijk").data)).incorrect = 9 ∧
    is_lost (runGuesses (newRound (("dog").data)) (("abcefhijk").data)).incorrect
      max_incorrect = true ∧
    is_word_complete (runGuesses (newRound (("dog").data)) (("abcefhijk").data)) = false :=
  loss_at_nine.2.2.2 (("dog").data) (("abcefhijk").data)
    (by decide) (by decide) (by decide) (by decide) (by decide)

/-- Claim C7: a fresh round's progress has the length of the word, every
alphabetic position holds the placeholder, and every hyphen or space position
is already revealed at creation. -/
theorem new_round_progress (w : List Char)
    (_hW : ∀ c ∈ w, c.isAlpha = true ∨ c = '-' ∨ c = ' ') :
    (newRound w).progress.length = w.length ∧
    ∀ i : Nat, i < w.length →
      ((w.getD i ' ' = '-' ∨ w.getD i ' ' = ' ') →
        (newRound w).progress.getD i ' ' = w.getD i ' ' ∧
        (newRound w).progress.getD i ' ' ≠ '_') ∧
      ((w.getD i ' ').isAlpha = true → (newRound w).progress.getD i ' ' = '_') := by
  obtain ⟨_, _, hp⟩ := newRound_inv w
  rw [(newRound_basic w).2.1] at hp
  have hlen : (newRound w).progress.length = w.length := by
    rw [hp, List.length_map]
  refine ⟨hlen, ?_⟩
  intro i hi
  have hgw : w.getD i ' ' = w[i] := List.getD_eq_getElem w ' ' hi
  have hgp : (newRound w).progress.getD i ' '
      = charState ∅ (w[i]) := by
    rw [hp, List.getD_eq_getElem _ ' ' (by rw [List.length_map]; exact hi),
      List.getElem_map]
  constructor
  · intro hcs
    rw [hgw] at hcs
    rcases hcs with hcs | hcs <;>
      · rw [hgp, hgw, hcs]
        exact ⟨rfl, by decide⟩
  · intro hca
    rw [hgw] at hca
    rw [hgp]
    simp [charState, hca]

/-- Witness for C7 on the word a-b c. -/
theorem new_round_progress_checked :
    (newRound (("a-b c").data)).progress.length = 5 ∧
    (newRound (("a-b c").data)).progress.getD 1 ' ' = '-' ∧
    (newRound (("a-b c").data)).progress.getD 3 ' ' = ' ' ∧
    (newRound (("a-b c").data)).progress.getD 0 ' ' = '_' := by
  have h := new_round_progress (("a-b c").data) (by decide)
  refine ⟨h.1, ?_, ?_, ?_⟩
  · exact (((h.2 1 (by decide)).1 (by decide)).1).trans (by decide)
  · exact (((h.2 3 (by decide)).1 (by decide)).1).trans (by decide)
  · exact (h.2 0 (by decide)).2 (by decide)

/-- Claim C5: the keys q and Q are skipped before any guess evaluation, so
they never change the state, and a word containing the letter q can never
reach completion, whatever keys are pressed. -/
theorem q_never_processed :
    (∀ st : GameState, handleKey st 'q' = st) ∧
    (∀ st : GameState, handleKey st 'Q' = st) ∧
    ∀ (w ks : List Char), (∃ c ∈ w, c = 'q' ∨ c = 'Q') →
      is_word_complete (play (newRound w) ks) = false := by
  refine ⟨fun st => by unfold handleKey; simp, fun st => by unfold handleKey; simp, ?_⟩
  rintro w ks ⟨c, hc, hcq⟩
  obtain ⟨hw, hg, hp⟩ := roundInv_play (newRound_inv w) ks
  have hQ := noQ_play (noQ_newRound w) ks
  rw [Bool.eq_false_iff]
  intro hcomp
  rw [is_word_complete_iff] at hcomp
  apply hcomp
  rw [hp, List.mem_map]
  refine ⟨c, hc, ?_⟩
  have hca : c.isAlpha = true := by rcases hcq with rfl | rfl <;> decide
  have hcl : c.toLower = 'q' := by rcases hcq with rfl | rfl <;> decide
  have hnm : c.toLower ∉ (play (newRound w) ks).guessed := by
    rw [hcl]
    intro hmem
    exact hQ 'q' hmem rfl
  simp [charState, hca, hnm]

/-- Witness for C5: pressing q leaves a concrete round unchanged, and the word
quiz never completes even after its other three letters are guessed. -/
theorem q_never_processed_checked :
    handleKey (newRound (("dog").data)) 'q' = newRound (("dog").data) ∧
    is_word_complete (play (newRound (("quiz").data)) (("uiz").data)) = false :=
  ⟨q_never_processed.1 (newRound (("dog").data)),
   q_never_processed.2.2 (("quiz").data) (("uiz").data) (by decide)⟩

/-- Counterexample to claim C2 as stated: on the word a_b — a word the parser
can produce, since WordNet headwords may contain underscores — every
alphabetic letter has been correctly guessed, yet the literal underscore in
the word is itself an unremovable placeholder, so is_word_complete stays
false and the claimed equivalence fails. -/
theorem complete_iff_cex :
    is_word_complete (play (newRound (("a_b").data)) (("ab").data)) = false ∧
    ∀ c ∈ (("a_b").data), c.isAlpha = true →
      c.toLower ∈ (play (newRound (("a_b").data)) (("ab").data)).guessed := by
  decide

/-- Claim C2 (amended): for every round whose word contains no literal
placeholder character, after any key sequence the word is complete exactly
when every alphabetic letter of the word has been guessed (the guessed set
holds its lowercase form). -/
theorem complete_iff_all_guessed (w ks : List Char) (hno : '_' ∉ w) :
    is_word_complete (play (newRound w) ks) = true ↔
      ∀ c ∈ w, c.isAlpha = true →
        c.toLower ∈ (play (newRound w) ks).guessed := by
  obtain ⟨hw, hg, hp⟩ := roundInv_play (newRound_inv w) ks
  rw [is_word_complete_iff, hp]
  constructor
  · intro h c hc hca
    by_contra hn
    apply h
    rw [List.mem_map]
    exact ⟨c, hc, by simp [charState, hca, hn]⟩
  · intro h hmem
    rw [List.mem_map] at hmem
    obtain ⟨c, hc, hcs⟩ := hmem
    by_cases hca : c.isAlpha
    · have hin := h c hc hca
      rw [charState, if_pos hca, if_pos hin] at hcs
      exact toLower_ne_underscore hca hcs
    · rw [Bool.not_eq_true] at hca
      rw [charState, if_neg (by rw [hca]; intro hx; exact absurd hx (by simp))] at hcs
      exact hno (hcs ▸ hc)

/-- Witness for the amended C2: for word cat, after guessing c, a, t the
round is complete. -/
theorem complete_iff_all_guessed_checked :
    is_word_complete (play (newRound (("cat").data)) (("cat").data)) = true :=
  (complete_iff_all_guessed (("cat").data) (("cat").data) (by decide)).mpr (by decide)

/-- Claim C3: a line yields an entry exactly when the stripped line is
non-empty, starts with a digit, contains a pipe, its pre-pipe segment has at
least 5 whitespace-separated tokens, and the extracted word and definition
are non-empty; the WordNet computer line yields the expected entry, and a
line whose stripped form does not start with a digit yields no entry. -/
theorem parse_line_characterization :
    (∀ raw : List Char,
      (parseLine raw).isSome = true ↔
        (pyStrip raw ≠ [] ∧ ((pyStrip raw).headD ' ').isDigit = true ∧
         (pyStrip raw).contains '|' = true ∧
         5 ≤ (pySplitWs (prePipe (pyStrip raw))).length ∧
         lineWord (pyStrip raw) ≠ [] ∧ lineDef (pyStrip raw) ≠ [])) ∧
    parseLine (("00260881 05 n 01 computer 0 002 @ ...|a machine for performing calculations automatically").data)
      = some ((("computer").data),
          (("a machine for performing calculations automatically").data)) ∧
    (∀ raw : List Char, ((pyStrip raw).headD ' ').isDigit = false → parseLine raw = none) ∧
    parseLine (("; sample comment").data) = none := by
  refine ⟨?_, by decide, ?_, by decide⟩
  · intro raw
    rw [parseLine_eq]
    split_ifs with h1 h2 h3
    · apply iff_of_false (by simp)
      rintro ⟨r1, r2, r3, _, _, _⟩
      have hE : (pyStrip raw).isEmpty = false := by
        rcases Bool.eq_false_or_eq_true ((pyStrip raw).isEmpty) with h | h
        · exact absurd (List.isEmpty_iff.mp h) r1
        · exact h
      rw [hE, r2, r3] at h1
      exact absurd h1 (by decide)
    · apply iff_of_false (by simp)
      rintro ⟨_, _, _, r4, _, _⟩
      omega
    · apply iff_of_true (by simp)
      rw [Bool.or_eq_true, Bool.or_eq_true] at h1
      push_neg at h1
      obtain ⟨⟨h1a, h1b⟩, h1c⟩ := h1
      rw [Bool.and_eq_true] at h3
      refine ⟨?_, ?_, ?_, by omega, ?_, ?_⟩
      · intro he
        exact h1a (by rw [he]; rfl)
      · rcases Bool.eq_false_or_eq_true (((pyStrip raw).headD ' ').isDigit) with h | h
        · exact h
        · exact absurd (by rw [h]; rfl) h1b
      · rcases Bool.eq_false_or_eq_true ((pyStrip raw).contains '|') with h | h
        · exact h
        · exact absurd (by rw [h]; rfl) h1c
      · intro he
        have hq := h3.1
        rw [he] at hq
        exact absurd hq (by decide)
      · intro he
        have hq := h3.2
        rw [he] at hq
        exact absurd hq (by decide)
    · apply iff_of_false (by simp)
      rintro ⟨_, _, _, _, r5, r6⟩
      apply h3
      rw [Bool.and_eq_true]
      constructor
      · rcases Bool.eq_false_or_eq_true ((lineWord (pyStrip raw)).isEmpty) with h | h
        · exact absurd (List.isEmpty_iff.mp h) r5
        · rw [h]; rfl
      · rcases Bool.eq_false_or_eq_true ((lineDef (pyStrip raw)).isEmpty) with h | h
        · exact absurd (List.isEmpty_iff.mp h) r6
        · rw [h]; rfl
  · intro raw hdig
    rw [parseLine_eq]
    have hcond : ((pyStrip raw).isEmpty || !((pyStrip raw).headD ' ').isDigit
        || !(pyStrip raw).contains '|') = true := by
      rw [hdig]
      simp
    rw [if_pos hcond]

/-- Witness for C3: a line whose stripped form starts with a letter yields no
entry, and the computer line yields one. -/
theorem parse_line_characterization_checked :
    parseLine (("xyz abc|def").data) = none ∧
    (parseLine (("00260881 05 n 01 computer 0 002 @ ...|a machine for performing calculations automatically").data)).isSome = true := by
  constructor
  · exact parse_line_characterization.2.2.1 (("xyz abc|def").data) (by decide)
  · rw [parse_line_characterization.2.1]
    rfl

/-- Claim C8: the loader stores only entries whose word and definition are
both non-empty, and when several lines of one file parse to the same word,
the definition of the last such line is the one retained. -/
theorem dict_store_load :
    (∀ (lines : List (List Char)) (w d : List Char),
        dictFind (loadLines lines) w = some d → w ≠ [] ∧ d ≠ []) ∧
    (∀ (pre post : List (List Char)) (l w d : List Char),
        parseLine l = some (w, d) →
        (∀ l2 ∈ post, ∀ e : List Char × List Char, parseLine l2 = some e → e.1 ≠ w) →
        dictFind (loadLines (pre ++ l :: post)) w = some d) := by
  constructor
  · have key : ∀ (lines : List (List Char)) (d0 : List (List Char × List Char)),
        (∀ w v, dictFind d0 w = some v → w ≠ [] ∧ v ≠ []) →
        ∀ w v, dictFind (loadLinesFrom d0 lines) w = some v → w ≠ [] ∧ v ≠ [] := by
      intro lines
      induction lines with
      | nil => exact fun d0 h => h
      | cons l ls ih =>
        intro d0 h w v hf
        cases hpl : parseLine l with
        | none =>
          have hstep : loadLinesFrom d0 (l :: ls) = loadLinesFrom d0 ls := by
            unfold loadLinesFrom
            rw [List.foldl_cons, hpl]
          rw [hstep] at hf
          exact ih d0 h w v hf
        | some e =>
          obtain ⟨e1, e2⟩ := e
          have hstep : loadLinesFrom d0 (l :: ls)
              = loadLinesFrom (dictInsert d0 e1 e2) ls := by
            unfold loadLinesFrom
            rw [List.foldl_cons, hpl]
          rw [hstep] at hf
          refine ih _ ?_ w v hf
          intro w2 v2 hfv
          rw [dictFind_insert] at hfv
          by_cases he : e1 = w2
          · rw [if_pos he] at hfv
            rw [Option.some_inj] at hfv
            obtain ⟨hw, hd⟩ := parseLine_nonempty hpl
            exact ⟨he ▸ hw, hfv ▸ hd⟩
          · rw [if_neg he] at hfv
            exact h w2 v2 hfv
    intro lines w d hf
    exact key lines [] (fun w v hv => absurd hv (by simp [dictFind])) w d hf
  · intro pre post l w d hpl hpost
    unfold loadLines
    rw [loadLinesFrom_append]
    have hstep : loadLinesFrom (loadLinesFrom [] pre) (l :: post)
        = loadLinesFrom (dictInsert (loadLinesFrom [] pre) w d) post := by
      unfold loadLinesFrom
      rw [List.foldl_cons, hpl]
    rw [hstep]
    rw [loadLinesFrom_no_word _ post w hpost]
    rw [dictFind_insert, if_pos rfl]

/-- Witness for C8: two lines defining the word dog; the later definition is
the one looked up. -/
theorem dict_store_load_checked :
    dictFind (loadLines [(("1 a b c dog 0 @ x|first def").data),
        (("2 a b c dog 0 @ x|second def").data)]) (("dog").data)
      = some (("second def").data) := by
  have h := dict_store_load.2 [(("1 a b c dog 0 @ x|first def").data)] []
    (("2 a b c dog 0 @ x|second def").data) (("dog").data) (("second def").data)
    (by decide) (by intro l2 hl2; exact absurd hl2 (by simp))
  exact h
